import Mathlib

/-!
Verification of the two source fragments of the repository:

* `src/projects/32-web3-plugin-polkadot/src/polkadot-plugin.ts` —
  `PolkadotPlugin.createRpcMethods`, the dynamic RPC namespace builder.
* `src/projects/03-inscribe/src/Inscribe-app/src/utils/index.ts` —
  the `isLoggedIn` predicate.

The TypeScript is embedded shallowly.  JavaScript objects used as string-keyed
mappings become association lists (`List (String × β)`) whose insertion
operation `objInsert` mirrors JavaScript property assignment: assigning to an
existing key overwrites its value in place (key order is kept), assigning to a
fresh key appends it.  Each arrow function produced by the builder captures
exactly one piece of data — the fully-qualified method string — so a produced
callable is embedded as that datum (`RpcCallable`) together with the invocation
semantics `invoke`, which forwards `{ method, params := [arg] }` to the
request-sending collaborator `send` and returns its result.
-/

set_option autoImplicit false

/-- A request object passed to `this.requestManager.send`:
`{ method: string, params: [...] }`, with parameter values of type `α`. -/
structure Request (α : Type) where
  method : String
  params : List α
  deriving DecidableEq

/-- A callable produced by the builder.  The arrow function
`(args) => this.requestManager.send({ method: fq, params: [args] })`
captures exactly the fully-qualified method string `fq`; the callable is
embedded as that captured datum. -/
structure RpcCallable where
  method : String
  deriving DecidableEq

/-- Invoking a produced callable with one argument `a`: it forwards
`{ method := c.method, params := [a] }` to the request-sending collaborator
`send` and returns the collaborator's result unchanged. -/
def invoke {α ρ : Type} (send : Request α → ρ) (c : RpcCallable) (a : α) : ρ :=
  send ⟨c.method, [a]⟩

/-- A minimal universe of JavaScript argument values; `undef` is the value a
parameter is bound to when the function is called with fewer arguments. -/
inductive JsVal where
  | undef : JsVal
  | str : String → JsVal
  deriving DecidableEq

/-- Calling a produced callable with zero arguments.  JavaScript binds the
missing parameter `args` to `undefined`, so the call is `invoke` at
`JsVal.undef`. -/
def invokeNoArgs {ρ : Type} (send : Request JsVal → ρ) (c : RpcCallable) : ρ :=
  invoke send c JsVal.undef

/-- The request-sending collaborator instrumented to expose its observable
effect: calling `send` on `r` yields the result together with the one-element
trace of requests emitted. -/
def sendTraced {ρ : Type} (send : Request JsVal → ρ) (r : Request JsVal) :
    ρ × List (Request JsVal) :=
  (send r, [r])

/-- Invoking a produced callable, with the emitted requests traced: the body of
the arrow function is a single `send` of `{ method, params := [a] }`. -/
def invokeTraced {ρ : Type} (send : Request JsVal → ρ) (c : RpcCallable) (a : JsVal) :
    ρ × List (Request JsVal) :=
  sendTraced send ⟨c.method, [a]⟩

/-- JavaScript property assignment `obj[k] = v` on an object embedded as an
association list: if `k` is already a key its value is overwritten in place,
otherwise the pair `(k, v)` is appended. -/
def objInsert {β : Type} (l : List (String × β)) (k : String) (v : β) :
    List (String × β) :=
  if (l.map Prod.fst).contains k then
    l.map (fun p => if p.1 = k then (k, v) else p)
  else
    l ++ [(k, v)]

/-- The inner loop of `createRpcMethods`:
`for (let endpointName of endpointNames) { if (!supported.includes(...)) continue; endPoints[endpointName] = (args) => ... }`,
accumulating the `endPoints` object.  Skipped endpoints create no entry; a
supported endpoint `e` stores the callable capturing `ns ++ "_" ++ e`. -/
def createEndpointsLoop (ns : String) (supported : List String) :
    List String → List (String × RpcCallable) → List (String × RpcCallable)
  | [], endPoints => endPoints
  | e :: rest, endPoints =>
    if supported.contains (ns ++ "_" ++ e) then
      createEndpointsLoop ns supported rest (objInsert endPoints e ⟨ns ++ "_" ++ e⟩)
    else
      createEndpointsLoop ns supported rest endPoints

/-- `PolkadotPlugin.createRpcMethods`: the outer loop over
`Object.keys(rpcList)` builds, for each namespace, the inner `endPoints`
object (starting from `{}`) and assigns it to
`returnedRpcMethods[rpcNamespace]`.  A catalog, being a JavaScript record, has
pairwise-distinct keys; the embedding takes it as an association list. -/
def createRpcMethods (rpcList : List (String × List String)) (supported : List String) :
    List (String × List (String × RpcCallable)) :=
  rpcList.foldl
    (fun returnedRpcMethods p =>
      objInsert returnedRpcMethods p.1 (createEndpointsLoop p.1 supported p.2 []))
    []

/-- The inner loop with the collaborator's request trace threaded through.  The
loop body contains no call to `send` (the only `send` in the source sits under
the arrow function, which is merely constructed here), so the trace component
is passed along unchanged by every iteration. -/
def createEndpointsLoopTraced (ns : String) (supported : List String) :
    List String → List (String × RpcCallable) × List (Request JsVal) →
      List (String × RpcCallable) × List (Request JsVal)
  | [], st => st
  | e :: rest, st =>
    if supported.contains (ns ++ "_" ++ e) then
      createEndpointsLoopTraced ns supported rest (objInsert st.1 e ⟨ns ++ "_" ++ e⟩, st.2)
    else
      createEndpointsLoopTraced ns supported rest st

/-- `createRpcMethods` with the collaborator's request trace threaded through
the whole construction, starting from the empty trace. -/
def createRpcMethodsTraced (rpcList : List (String × List String)) (supported : List String) :
    List (String × List (String × RpcCallable)) × List (Request JsVal) :=
  rpcList.foldl
    (fun st p =>
      let inner := createEndpointsLoopTraced p.1 supported p.2 ([], st.2)
      (objInsert st.1 p.1 inner.1, inner.2))
    ([], [])

/-- Removal of duplicate elements keeping the first occurrence of each, with an
accumulator of elements already seen. -/
def dedupFrom (seen : List String) : List String → List String
  | [] => []
  | e :: rest =>
    if seen.contains e then dedupFrom seen rest
    else e :: dedupFrom (e :: seen) rest

/-- A sequence with its duplicates removed (first occurrences kept). -/
def dedupKeepFirst (l : List String) : List String :=
  dedupFrom [] l

/-- The account record shape used by `isLoggedIn` (only `address` is read). -/
structure InjectedAccountWithMeta where
  address : String
  deriving DecidableEq

/-- `isLoggedIn = ({ address }) => localStorage[LOCAL_STORAGE.ACCOUNT] === address`.
`stored` is the value persisted under the fixed account key
`LOCAL_STORAGE.ACCOUNT` (`none` when nothing is stored, in which case the
strict comparison of `undefined` with a string is `false`).  The key constant
itself lives in `consts.ts` and only selects which slot is read; the predicate
depends only on the value found there. -/
def isLoggedIn (stored : Option String) (account : InjectedAccountWithMeta) : Bool :=
  stored == some account.address

/-! ### Association-list and lookup helper lemmas -/

theorem lookup_mem {β : Type} {l : List (String × β)} {k : String} {v : β}
    (h : l.lookup k = some v) : (k, v) ∈ l := by
  induction l with
  | nil => simp [List.lookup] at h
  | cons p rest ih =>
    rcases p with ⟨k', v'⟩
    rw [List.lookup_cons] at h
    cases hbeq : k == k'
    · rw [hbeq] at h
      exact List.mem_cons_of_mem _ (ih h)
    · rw [hbeq] at h
      simp only [Option.some.injEq] at h
      subst h
      have hk : k = k' := eq_of_beq hbeq
      subst hk
      exact List.mem_cons_self _ _

theorem objInsert_of_not_contains {β : Type} {l : List (String × β)} {k : String} {v : β}
    (h : (l.map Prod.fst).contains k = false) : objInsert l k v = l ++ [(k, v)] := by
  unfold objInsert
  rw [h]
  simp

theorem objInsert_mem {β : Type} {l : List (String × β)} {k : String} {v : β} {p : String × β}
    (hp : p ∈ objInsert l k v) : p ∈ l ∨ p = (k, v) := by
  unfold objInsert at hp
  split at hp
  · rcases List.mem_map.mp hp with ⟨q, hq, hqe⟩
    split at hqe
    · right; exact hqe.symm
    · left; exact hqe ▸ hq
  · rcases List.mem_append.mp hp with h | h
    · exact Or.inl h
    · right
      simpa using h

theorem objInsert_canonical {β : Type} {l : List (String × β)} {k : String} (f : String → β)
    (hcan : ∀ p ∈ l, p.2 = f p.1) (hk : (l.map Prod.fst).contains k = true) :
    objInsert l k (f k) = l := by
  unfold objInsert
  rw [hk]
  simp only [if_true]
  have : ∀ p ∈ l, (if p.1 = k then (k, f k) else p) = id p := by
    intro p hp
    split
    · rename_i hpk
      have h2 := hcan p hp
      simp only [id]
      rw [← hpk, ← h2]
    · rfl
  rw [List.map_congr_left this, List.map_id]

theorem objInsert_keys_of_contains {β : Type} {l : List (String × β)} {k : String} {v : β}
    (hk : (l.map Prod.fst).contains k = true) :
    (objInsert l k v).map Prod.fst = l.map Prod.fst := by
  unfold objInsert
  rw [hk]
  simp only [if_true, List.map_map]
  apply List.map_congr_left
  intro p _
  simp only [Function.comp]
  split
  · rename_i hpk
    exact hpk.symm
  · rfl

theorem objInsert_contains_self {β : Type} (l : List (String × β)) (k : String) (v : β) :
    ((objInsert l k v).map Prod.fst).contains k = true := by
  by_cases hk : (l.map Prod.fst).contains k = true
  · rw [objInsert_keys_of_contains hk]; exact hk
  · rw [objInsert_of_not_contains (Bool.not_eq_true _ ▸ hk)]
    simp [List.elem_iff]

theorem objInsert_contains_mono {β : Type} {l : List (String × β)} {k' : String}
    (k : String) (v : β) (hk : (l.map Prod.fst).contains k' = true) :
    ((objInsert l k v).map Prod.fst).contains k' = true := by
  by_cases hc : (l.map Prod.fst).contains k = true
  · rw [objInsert_keys_of_contains hc]; exact hk
  · rw [objInsert_of_not_contains (Bool.not_eq_true _ ▸ hc)]
    rw [List.elem_iff] at hk ⊢
    simp only [List.map_append]
    exact List.mem_append_left _ hk

theorem contains_eq_false_of_not_mem {l : List String} {k : String} (h : k ∉ l) :
    l.contains k = false := by
  cases hc : l.contains k
  · rfl
  · exact absurd (List.elem_iff.mp hc) h

/-! ### Structure of the tables produced by the builder -/

theorem createEndpointsLoop_mem {ns : String} {supported : List String} {eps : List String} :
    ∀ {acc : List (String × RpcCallable)} {p : String × RpcCallable},
      p ∈ createEndpointsLoop ns supported eps acc →
      p ∈ acc ∨ (p.1 ∈ eps ∧ supported.contains (ns ++ "_" ++ p.1) = true ∧
        p.2 = RpcCallable.mk (ns ++ "_" ++ p.1)) := by
  induction eps with
  | nil => intro acc p hp; exact Or.inl hp
  | cons e rest ih =>
    intro acc p hp
    cases hs : supported.contains (ns ++ "_" ++ e) <;>
      simp only [createEndpointsLoop, hs, if_true, if_false, Bool.false_eq_true] at hp
    · rcases ih hp with h | ⟨h1, h2, h3⟩
      · exact Or.inl h
      · exact Or.inr ⟨List.mem_cons_of_mem _ h1, h2, h3⟩
    · rcases ih hp with h | ⟨h1, h2, h3⟩
      · rcases objInsert_mem h with h' | h'
        · exact Or.inl h'
        · right
          subst h'
          exact ⟨List.mem_cons_self _ _, hs, rfl⟩
      · exact Or.inr ⟨List.mem_cons_of_mem _ h1, h2, h3⟩

theorem createRpcMethods_foldl_mem {S : List String} {C : List (String × List String)} :
    ∀ {acc : List (String × List (String × RpcCallable))}
      {q : String × List (String × RpcCallable)},
      q ∈ C.foldl (fun acc p => objInsert acc p.1 (createEndpointsLoop p.1 S p.2 [])) acc →
      q ∈ acc ∨ ∃ eps, (q.1, eps) ∈ C ∧ q.2 = createEndpointsLoop q.1 S eps [] := by
  induction C with
  | nil => intro acc q hq; exact Or.inl hq
  | cons p rest ih =>
    intro acc q hq
    rw [List.foldl_cons] at hq
    rcases ih hq with h | ⟨eps, h1, h2⟩
    · rcases objInsert_mem h with h' | h'
      · exact Or.inl h'
      · right
        subst h'
        exact ⟨p.2, by simp, rfl⟩
    · exact Or.inr ⟨eps, List.mem_cons_of_mem _ h1, h2⟩

theorem createRpcMethods_mem {C : List (String × List String)} {S : List String}
    {q : String × List (String × RpcCallable)} (hq : q ∈ createRpcMethods C S) :
    ∃ eps, (q.1, eps) ∈ C ∧ q.2 = createEndpointsLoop q.1 S eps [] := by
  rcases createRpcMethods_foldl_mem hq with h | h
  · simp at h
  · exact h

theorem createEndpointsLoop_unsupported {ns : String} {S : List String} :
    ∀ {eps : List String} {acc : List (String × RpcCallable)},
      (∀ e ∈ eps, S.contains (ns ++ "_" ++ e) = false) →
      createEndpointsLoop ns S eps acc = acc := by
  intro eps
  induction eps with
  | nil => intro acc _; rfl
  | cons e rest ih =>
    intro acc h
    have he : S.contains (ns ++ "_" ++ e) = false := h e (List.mem_cons_self _ _)
    simp only [createEndpointsLoop, he, Bool.false_eq_true, if_false]
    exact ih (fun e' he' => h e' (List.mem_cons_of_mem _ he'))

theorem createRpcMethods_foldl_nodup {S : List String} :
    ∀ {C : List (String × List String)} {acc : List (String × List (String × RpcCallable))},
      (acc.map Prod.fst ++ C.map Prod.fst).Nodup →
      C.foldl (fun acc p => objInsert acc p.1 (createEndpointsLoop p.1 S p.2 [])) acc =
        acc ++ C.map (fun p => (p.1, createEndpointsLoop p.1 S p.2 [])) := by
  intro C
  induction C with
  | nil => intro acc _; simp
  | cons p rest ih =>
    intro acc hnd
    rw [List.foldl_cons]
    have hsplit := List.nodup_append.mp (by simpa using hnd)
    have hp1 : p.1 ∉ acc.map Prod.fst := by
      intro hmem
      exact hsplit.2.2 hmem (List.mem_cons_self _ _)
    rw [objInsert_of_not_contains (contains_eq_false_of_not_mem hp1)]
    have hnd' : ((acc ++ [(p.1, createEndpointsLoop p.1 S p.2 [])]).map Prod.fst ++
        rest.map Prod.fst).Nodup := by
      simp only [List.map_append, List.map_cons, List.map_nil]
      rw [List.append_assoc]
      simpa [List.singleton_append] using hnd
    rw [ih hnd']
    simp

theorem createRpcMethods_eq_map {C : List (String × List String)} {S : List String}
    (hnd : (C.map Prod.fst).Nodup) :
    createRpcMethods C S = C.map (fun p => (p.1, createEndpointsLoop p.1 S p.2 [])) := by
  unfold createRpcMethods
  rw [createRpcMethods_foldl_nodup (by simpa using hnd)]
  simp

/-! ### Claims -/

/-- C1: every entry of the table built by `createRpcMethods` is justified:
an endpoint name `e` appearing under namespace `ns` comes from the catalog's
sequence for `ns`, its fully-qualified identifier `ns ++ "_" ++ e` is a member
of the supported set, and the produced callable forwards exactly that
identifier, so no identifier outside the supported set ever appears as a
forwarded method name; unsupported endpoints produce no entry at all. -/
theorem rpc_table_entries_justified
    (C : List (String × List String)) (S : List String)
    (ns e : String) (inner : List (String × RpcCallable)) (c : RpcCallable)
    (hns : (ns, inner) ∈ createRpcMethods C S) (he : (e, c) ∈ inner) :
    ∃ eps, (ns, eps) ∈ C ∧ e ∈ eps ∧ S.contains (ns ++ "_" ++ e) = true ∧
      c.method = ns ++ "_" ++ e := by
  rcases createRpcMethods_mem hns with ⟨eps, h1, h2⟩
  have h1' : (ns, eps) ∈ C := h1
  have h2' : inner = createEndpointsLoop ns S eps [] := h2
  rcases createEndpointsLoop_mem (h2' ▸ he) with h | ⟨hm, hs, hc⟩
  · simp at h
  · have hm' : e ∈ eps := hm
    have hs' : S.contains (ns ++ "_" ++ e) = true := hs
    have hc' : c = RpcCallable.mk (ns ++ "_" ++ e) := hc
    exact ⟨eps, h1', hm', hs', by rw [hc']⟩

/-- Witness for C1 at the catalog `{ chain: [getBlock, getBlockHash] }` with
supported set `{ chain_getBlock }`. -/
theorem rpc_table_entries_justified_witness :
    ∃ eps, ("chain", eps) ∈ [("chain", ["getBlock", "getBlockHash"])] ∧
      "getBlock" ∈ eps ∧
      (["chain_getBlock"].contains ("chain" ++ "_" ++ "getBlock")) = true ∧
      (RpcCallable.mk "chain_getBlock").method = "chain" ++ "_" ++ "getBlock" :=
  rpc_table_entries_justified [("chain", ["getBlock", "getBlockHash"])] ["chain_getBlock"]
    "chain" "getBlock" [("getBlock", RpcCallable.mk "chain_getBlock")]
    (RpcCallable.mk "chain_getBlock") (by decide) (by decide)

/-- C2: invoking the callable stored at `output[ns][e]` with one argument `a`
forwards exactly `{ method := ns ++ "_" ++ e, params := [a] }` to the
request-sending collaborator and returns the collaborator's result
unchanged. -/
theorem rpc_invoke_forwards_request {α ρ : Type}
    (C : List (String × List String)) (S : List String) (ns e : String)
    (inner : List (String × RpcCallable)) (c : RpcCallable)
    (hns : (createRpcMethods C S).lookup ns = some inner)
    (he : inner.lookup e = some c)
    (send : Request α → ρ) (a : α) :
    invoke send c a = send ⟨ns ++ "_" ++ e, [a]⟩ := by
  rcases createRpcMethods_mem (lookup_mem hns) with ⟨eps, _, hinner⟩
  have hinner' : inner = createEndpointsLoop ns S eps [] := hinner
  rcases createEndpointsLoop_mem (hinner' ▸ lookup_mem he) with h | ⟨_, _, hc⟩
  · simp at h
  · have hc' : c = RpcCallable.mk (ns ++ "_" ++ e) := hc
    simp only [invoke]
    rw [hc']

/-- Witness for C2: the built `chain.getBlock` invoked on `"0xhash"`
(the collaborator is instantiated with the identity so the forwarded request
itself is the observed result). -/
theorem rpc_invoke_forwards_request_witness :
    invoke (fun r => r) (RpcCallable.mk "chain_getBlock") "0xhash" =
      (fun (r : Request String) => r) ⟨"chain" ++ "_" ++ "getBlock", ["0xhash"]⟩ :=
  rpc_invoke_forwards_request [("chain", ["getBlock"])] ["chain_getBlock"]
    "chain" "getBlock" [("getBlock", RpcCallable.mk "chain_getBlock")]
    (RpcCallable.mk "chain_getBlock") (by decide) (by decide) (fun r => r) "0xhash"

/-- C3: every namespace of the catalog appears as a key of the output, and a
namespace none of whose endpoints is supported is still present, mapped to the
empty inner mapping (in particular `{ chain: [] }` with empty supported set
yields `{ chain: {} }`). -/
theorem rpc_namespaces_all_present
    (C : List (String × List String)) (S : List String)
    (hnd : (C.map Prod.fst).Nodup) :
    (createRpcMethods C S).map Prod.fst = C.map Prod.fst ∧
    ∀ p ∈ C, (∀ e ∈ p.2, S.contains (p.1 ++ "_" ++ e) = false) →
      (p.1, ([] : List (String × RpcCallable))) ∈ createRpcMethods C S := by
  constructor
  · rw [createRpcMethods_eq_map hnd]
    simp
  · intro p hp hnone
    rw [createRpcMethods_eq_map hnd]
    have hnil : (p.1, ([] : List (String × RpcCallable))) =
        (p.1, createEndpointsLoop p.1 S p.2 []) := by
      rw [createEndpointsLoop_unsupported hnone]
    rw [hnil]
    exact List.mem_map.mpr ⟨p, hp, rfl⟩

/-- Witness for C3 at the catalog `{ chain: [] }` with the empty supported
set. -/
theorem rpc_namespaces_all_present_witness :
    ((createRpcMethods [("chain", ([] : List String))] []).map Prod.fst =
      [("chain", ([] : List String))].map Prod.fst) ∧
    ∀ p ∈ [("chain", ([] : List String))],
      (∀ e ∈ p.2, List.contains ([] : List String) (p.1 ++ "_" ++ e) = false) →
      (p.1, ([] : List (String × RpcCallable))) ∈
        createRpcMethods [("chain", ([] : List String))] [] :=
  rpc_namespaces_all_present [("chain", [])] [] (by decide)

/-- C4: `isLoggedIn` returns `true` exactly when the value persisted under the
fixed account key equals the account's address; when nothing is stored the
comparison is negative for every address.  The predicate is a total function of
its inputs, so it raises no error. -/
theorem isLoggedIn_spec (stored : Option String) (account : InjectedAccountWithMeta) :
    (isLoggedIn stored account = true ↔ stored = some account.address) ∧
    (stored = none → isLoggedIn stored account = false) := by
  constructor
  · simp [isLoggedIn]
  · intro h
    subst h
    rfl

/-- Witness for C4 at the stored value `"0xABC"` and the matching account. -/
theorem isLoggedIn_spec_witness :
    (isLoggedIn (some "0xABC") (InjectedAccountWithMeta.mk "0xABC") = true ↔
      some "0xABC" = some (InjectedAccountWithMeta.mk "0xABC").address) ∧
    (some "0xABC" = none →
      isLoggedIn (some "0xABC") (InjectedAccountWithMeta.mk "0xABC") = false) :=
  isLoggedIn_spec (some "0xABC") (InjectedAccountWithMeta.mk "0xABC")

/-- C7: on every well-formed input (a catalog association list and a supported
list) the builder terminates normally with a result; its embedding is a total
function whose codomain has no failure value. -/
theorem rpc_builder_total (C : List (String × List String)) (S : List String) :
    ∃ t, createRpcMethods C S = t :=
  ⟨_, rfl⟩

/-- C5: building twice from the same catalog and supported set yields tables
with identical outer key sets, identical inner key sets under every common
namespace, and the callables found under the same namespace and endpoint name
in the two tables forward identically on every argument. -/
theorem rpc_build_idempotent {α ρ : Type}
    (C : List (String × List String)) (S : List String)
    (t1 t2 : List (String × List (String × RpcCallable)))
    (ns e : String) (inner1 inner2 : List (String × RpcCallable))
    (c1 c2 : RpcCallable) (send : Request α → ρ) (a : α)
    (h1 : t1 = createRpcMethods C S) (h2 : t2 = createRpcMethods C S)
    (hi1 : t1.lookup ns = some inner1) (hi2 : t2.lookup ns = some inner2)
    (hc1 : inner1.lookup e = some c1) (hc2 : inner2.lookup e = some c2) :
    t1.map Prod.fst = t2.map Prod.fst ∧
    inner1.map Prod.fst = inner2.map Prod.fst ∧
    invoke send c1 a = invoke send c2 a := by
  subst h1
  subst h2
  rw [hi1] at hi2
  injection hi2 with hi
  subst hi
  rw [hc1] at hc2
  injection hc2 with hc
  subst hc
  exact ⟨rfl, rfl, rfl⟩

/-- Witness for C5: two builds from `{ chain: [getBlock] }` with supported set
`{ chain_getBlock }`, compared at `chain.getBlock` on `"0xhash"`. -/
theorem rpc_build_idempotent_witness :
    (createRpcMethods [("chain", ["getBlock"])] ["chain_getBlock"]).map Prod.fst =
      (createRpcMethods [("chain", ["getBlock"])] ["chain_getBlock"]).map Prod.fst ∧
    [("getBlock", RpcCallable.mk "chain_getBlock")].map Prod.fst =
      [("getBlock", RpcCallable.mk "chain_getBlock")].map Prod.fst ∧
    invoke (fun (r : Request String) => r) (RpcCallable.mk "chain_getBlock") "0xhash" =
      invoke (fun (r : Request String) => r) (RpcCallable.mk "chain_getBlock") "0xhash" :=
  rpc_build_idempotent [("chain", ["getBlock"])] ["chain_getBlock"]
    (createRpcMethods [("chain", ["getBlock"])] ["chain_getBlock"])
    (createRpcMethods [("chain", ["getBlock"])] ["chain_getBlock"])
    "chain" "getBlock"
    [("getBlock", RpcCallable.mk "chain_getBlock")]
    [("getBlock", RpcCallable.mk "chain_getBlock")]
    (RpcCallable.mk "chain_getBlock") (RpcCallable.mk "chain_getBlock")
    (fun r => r) "0xhash" rfl rfl (by decide) (by decide) (by decide) (by decide)

theorem createEndpointsLoopTraced_eq {ns : String} {S : List String} :
    ∀ {eps : List String} {acc : List (String × RpcCallable)} {tr : List (Request JsVal)},
      createEndpointsLoopTraced ns S eps (acc, tr) = (createEndpointsLoop ns S eps acc, tr) := by
  intro eps
  induction eps with
  | nil => intro acc tr; rfl
  | cons e rest ih =>
    intro acc tr
    cases hs : S.contains (ns ++ "_" ++ e) <;>
      simp only [createEndpointsLoopTraced, createEndpointsLoop, hs, if_true, if_false,
        Bool.false_eq_true] <;>
      exact ih

theorem foldl_pair_const {ι β τ : Type} (step : β × τ → ι → β × τ) (g : β → ι → β)
    (hstep : ∀ x t p, step (x, t) p = (g x p, t)) :
    ∀ (l : List ι) (x : β) (t : τ), l.foldl step (x, t) = (l.foldl g x, t) := by
  intro l
  induction l with
  | nil => intro x t; rfl
  | cons p rest ih =>
    intro x t
    rw [List.foldl_cons, List.foldl_cons, hstep]
    exact ih _ _

theorem createRpcMethodsTraced_eq (C : List (String × List String)) (S : List String) :
    createRpcMethodsTraced C S = (createRpcMethods C S, []) := by
  unfold createRpcMethodsTraced createRpcMethods
  exact foldl_pair_const _ _ (fun x t p => by simp [createEndpointsLoopTraced_eq]) C [] []

/-- C8: running the builder sends no request to the collaborator — the request
trace of the whole construction is empty and the constructed table is the pure
one; a request is emitted only when a produced callable is invoked, and then it
is exactly the one forwarded request. -/
theorem rpc_construction_sends_nothing {ρ : Type}
    (C : List (String × List String)) (S : List String)
    (send : Request JsVal → ρ) (c : RpcCallable) (a : JsVal) :
    (createRpcMethodsTraced C S).2 = [] ∧
    (createRpcMethodsTraced C S).1 = createRpcMethods C S ∧
    (invokeTraced send c a).2 = [Request.mk c.method [a]] := by
  refine ⟨?_, ?_, rfl⟩
  · rw [createRpcMethodsTraced_eq]
  · rw [createRpcMethodsTraced_eq]

/-- C9: every produced callable forwards a params list of length exactly one;
in particular a zero-argument invocation (which binds the parameter to
`undefined`) still forwards `{ method := ns ++ "_" ++ e, params := [undefined] }`,
never an empty params list. -/
theorem rpc_params_always_singleton {ρ : Type}
    (C : List (String × List String)) (S : List String) (ns e : String)
    (inner : List (String × RpcCallable)) (c : RpcCallable)
    (send : Request JsVal → ρ) (a : JsVal)
    (hns : (ns, inner) ∈ createRpcMethods C S) (he : (e, c) ∈ inner) :
    invokeNoArgs send c = send ⟨ns ++ "_" ++ e, [JsVal.undef]⟩ ∧
    (invokeTraced send c a).2 = [Request.mk (ns ++ "_" ++ e) [a]] ∧
    ((invokeTraced send c a).2.all fun r => r.params.length == 1) = true := by
  rcases createRpcMethods_mem hns with ⟨eps, _, h2⟩
  have h2' : inner = createEndpointsLoop ns S eps [] := h2
  rcases createEndpointsLoop_mem (h2' ▸ he) with h | ⟨_, _, hc⟩
  · simp at h
  · have hc' : c = RpcCallable.mk (ns ++ "_" ++ e) := hc
    subst hc'
    exact ⟨rfl, rfl, rfl⟩

/-- Witness for C9: the `chain.getBlock` callable invoked with zero arguments
and with the argument `"0xhash"` (identity collaborator). -/
theorem rpc_params_always_singleton_witness :
    invokeNoArgs (fun (r : Request JsVal) => r) (RpcCallable.mk "chain_getBlock") =
      (fun (r : Request JsVal) => r) ⟨"chain" ++ "_" ++ "getBlock", [JsVal.undef]⟩ ∧
    (invokeTraced (fun (r : Request JsVal) => r) (RpcCallable.mk "chain_getBlock")
        (JsVal.str "0xhash")).2 =
      [Request.mk ("chain" ++ "_" ++ "getBlock") [JsVal.str "0xhash"]] ∧
    ((invokeTraced (fun (r : Request JsVal) => r) (RpcCallable.mk "chain_getBlock")
        (JsVal.str "0xhash")).2.all fun r => r.params.length == 1) = true :=
  rpc_params_always_singleton [("chain", ["getBlock"])] ["chain_getBlock"]
    "chain" "getBlock" [("getBlock", RpcCallable.mk "chain_getBlock")]
    (RpcCallable.mk "chain_getBlock") (fun r => r) (JsVal.str "0xhash")
    (by decide) (by decide)

theorem createEndpointsLoop_supported_congr {ns : String} {S1 S2 : List String}
    (h : ∀ x, S1.contains x = S2.contains x) :
    ∀ (eps : List String) (acc : List (String × RpcCallable)),
      createEndpointsLoop ns S1 eps acc = createEndpointsLoop ns S2 eps acc := by
  intro eps
  induction eps with
  | nil => intro acc; rfl
  | cons e rest ih =>
    intro acc
    simp only [createEndpointsLoop, h (ns ++ "_" ++ e)]
    cases S2.contains (ns ++ "_" ++ e) <;> simp only [if_true, if_false, Bool.false_eq_true] <;>
      exact ih _

/-- C10: the builder reads the supported collection only through membership:
two supported lists containing the same strings (whatever their order or
multiplicities) produce identical tables. -/
theorem rpc_supported_membership_only
    (C : List (String × List String)) (S1 S2 : List String)
    (h1 : ∀ x ∈ S1, x ∈ S2) (h2 : ∀ x ∈ S2, x ∈ S1) :
    createRpcMethods C S1 = createRpcMethods C S2 := by
  have hc : ∀ x, S1.contains x = S2.contains x := by
    intro x
    by_cases hm : x ∈ S1
    · have hx1 : S1.contains x = true := List.elem_iff.mpr hm
      have hx2 : S2.contains x = true := List.elem_iff.mpr (h1 x hm)
      rw [hx1, hx2]
    · rw [contains_eq_false_of_not_mem hm,
        contains_eq_false_of_not_mem (fun hm2 => hm (h2 x hm2))]
  unfold createRpcMethods
  apply List.foldl_ext
  intro acc p _
  rw [createEndpointsLoop_supported_congr hc]

/-- Witness for C10: the supported lists `[chain_getBlock, chain_getBlock]`
and `[chain_getBlock]` contain the same strings. -/
theorem rpc_supported_membership_only_witness :
    createRpcMethods [("chain", ["getBlock", "getBlockHash"])]
        ["chain_getBlock", "chain_getBlock"] =
      createRpcMethods [("chain", ["getBlock", "getBlockHash"])] ["chain_getBlock"] :=
  rpc_supported_membership_only [("chain", ["getBlock", "getBlockHash"])]
    ["chain_getBlock", "chain_getBlock"] ["chain_getBlock"] (by decide) (by decide)

theorem dedupFrom_cons (seen : List String) (e : String) (rest : List String) :
    dedupFrom seen (e :: rest) =
      if seen.contains e then dedupFrom seen rest else e :: dedupFrom (e :: seen) rest := rfl

theorem createEndpointsLoop_dedupFrom {ns : String} {S : List String} :
    ∀ (eps seen : List String) (acc : List (String × RpcCallable)),
      (∀ p ∈ acc, p.2 = RpcCallable.mk (ns ++ "_" ++ p.1)) →
      (∀ x, x ∈ seen → S.contains (ns ++ "_" ++ x) = true →
        (acc.map Prod.fst).contains x = true) →
      createEndpointsLoop ns S eps acc = createEndpointsLoop ns S (dedupFrom seen eps) acc := by
  intro eps
  induction eps with
  | nil => intro seen acc _ _; rfl
  | cons e rest ih =>
    intro seen acc hcan hseen
    by_cases hse : e ∈ seen
    · have hse' : seen.contains e = true := List.elem_iff.mpr hse
      rw [show dedupFrom seen (e :: rest) = dedupFrom seen rest from by
        rw [dedupFrom_cons, if_pos hse']]
      cases hs : S.contains (ns ++ "_" ++ e)
      · simp only [createEndpointsLoop, hs, Bool.false_eq_true, if_false]
        exact ih seen acc hcan hseen
      · simp only [createEndpointsLoop, hs, if_true]
        rw [show objInsert acc e (RpcCallable.mk (ns ++ "_" ++ e)) = acc from
          objInsert_canonical (fun x => RpcCallable.mk (ns ++ "_" ++ x)) hcan (hseen e hse hs)]
        exact ih seen acc hcan hseen
    · have hse' : seen.contains e = false := contains_eq_false_of_not_mem hse
      have hne : ¬(seen.contains e = true) := by
        rw [hse']
        exact Bool.false_ne_true
      rw [show dedupFrom seen (e :: rest) = e :: dedupFrom (e :: seen) rest from by
        rw [dedupFrom_cons, if_neg hne]]
      cases hs : S.contains (ns ++ "_" ++ e)
      · simp only [createEndpointsLoop, hs, Bool.false_eq_true, if_false]
        refine ih (e :: seen) acc hcan ?_
        intro x hx hsx
        rcases List.mem_cons.mp hx with hxe | hxs
        · subst hxe
          rw [hs] at hsx
          cases hsx
        · exact hseen x hxs hsx
      · simp only [createEndpointsLoop, hs, if_true]
        refine ih (e :: seen) (objInsert acc e (RpcCallable.mk (ns ++ "_" ++ e))) ?_ ?_
        · intro p hp
          rcases objInsert_mem hp with h | h
          · exact hcan p h
          · rw [h]
        · intro x hx hsx
          rcases List.mem_cons.mp hx with hxe | hxs
          · subst hxe
            exact objInsert_contains_self _ _ _
          · exact objInsert_contains_mono _ _ (hseen x hxs hsx)

/-- C6: a duplicated endpoint name inside one namespace's catalog sequence only
re-assigns the same inner-mapping key with the same callable, so the builder's
output on any catalog coincides with its output on the catalog whose sequences
have had their duplicates removed (first occurrences kept). -/
theorem rpc_duplicates_collapse (C : List (String × List String)) (S : List String) :
    createRpcMethods C S =
      createRpcMethods (C.map fun p => (p.1, dedupKeepFirst p.2)) S := by
  unfold createRpcMethods
  rw [List.foldl_map]
  apply List.foldl_ext
  intro acc p _
  show objInsert acc p.1 (createEndpointsLoop p.1 S p.2 []) =
    objInsert acc p.1 (createEndpointsLoop p.1 S (dedupKeepFirst p.2) [])
  rw [createEndpointsLoop_dedupFrom p.2 [] []
    (fun q hq => absurd hq (List.not_mem_nil q))
    (fun x hx _ => absurd hx (List.not_mem_nil x))]
  rfl
